import Mathlib

/-!
Shallow embedding of the election aggregation engine (src/main.rs).

The source is a single-file Rust program that ingests per-poll vote rows,
sorts them, fuses consecutive rows of the same party into one record,
groups the fused records into ridings, and derives reports
(vote totals, victory margins, CON+PPC counterfactual).

Modelling conventions:
- machine integers (usize) are Nat; no arithmetic in the program can
  overflow-wrap in a way any claim depends on, and the one subtraction is
  guarded (see ppc_con);
- the f32 arithmetic of victory margins is modelled by a binary32 model:
  conversions, subtraction and division round to nearest with ties to even
  (rne, roundF32), and division by zero yields NaN or an infinity (F32,
  divF32); the exponent is unbounded, since for usize-ranged data no value
  of this program overflows f32 and no nonzero quotient falls below the
  smallest normal, so binary32 overflow and underflow are unreachable;
  the ratio fields of the totals report stay exact rationals, as no claim
  depends on their rounding;
- the Rust stable sort is modelled by List.mergeSort with the same
  comparison;
- itertools group_by (grouping of maximal consecutive runs with equal key)
  is modelled by runsByKey;
- HashMap is modelled by an association list; the list order stands for the
  iteration order of the map, which in Rust is arbitrary, so theorems about
  iteration-order (in)dependence quantify over the list order;
- a Rust panic (unwrap of an empty map, out-of-bounds index) is modelled by
  an Option-valued function returning none;
- a fallible row parse (serde deserialization) is modelled by Except.
-/

/-- Political party enumeration, in the declaration order of the Rust enum
(the derived Ord on the Rust side compares by this order). -/
inductive Party : Type where
  | LIB | CON | NDP | BLQ | GRN | PPC | IND
  | LTN | RIN | NCA | APP | AAE | DAD | ATN | FED | VCP | CHP | PIQ | COM
  | MXL | UPC | PIR | RMJ | PCP | SCC | CFF | NAT | SNR | CAD | CAP | TBR
  | PACT | WBP | FPNP | WLP | PPP | NLF
  deriving DecidableEq, Repr

/-- Ordinal of a Party in declaration order; models the derived Rust Ord. -/
def Party.toNat : Party → Nat
  | .LIB => 0 | .CON => 1 | .NDP => 2 | .BLQ => 3 | .GRN => 4 | .PPC => 5
  | .IND => 6 | .LTN => 7 | .RIN => 8 | .NCA => 9 | .APP => 10 | .AAE => 11
  | .DAD => 12 | .ATN => 13 | .FED => 14 | .VCP => 15 | .CHP => 16
  | .PIQ => 17 | .COM => 18 | .MXL => 19 | .UPC => 20 | .PIR => 21
  | .RMJ => 22 | .PCP => 23 | .SCC => 24 | .CFF => 25 | .NAT => 26
  | .SNR => 27 | .CAD => 28 | .CAP => 29 | .TBR => 30 | .PACT => 31
  | .WBP => 32 | .FPNP => 33 | .WLP => 34 | .PPP => 35 | .NLF => 36

/-- Label-to-party table: every deserialize rename and alias of the serde
attributes on the Rust Party enum, in declaration order.  A variant with a
serialize-only rename (or no attribute) deserializes from its own name. -/
def partyAliases : List (String × Party) :=
  [("Liberal", .LIB),
   ("Conservative", .CON),
   ("NDP-New Democratic Party", .NDP),
   ("Bloc Québécois", .BLQ),
   ("Green Party", .GRN),
   ("People\x27s Party", .PPC),
   ("Independent", .IND), ("No Affiliation", .IND),
   ("Libertarian", .LTN),
   ("Parti Rhinocéros Party", .RIN), ("Rhinoceros", .RIN), ("neorhino.ca", .RIN),
   ("National Citizens Alliance", .NCA),
   ("Animal Protection Party", .APP),
   ("Animal Alliance/Environment Voters", .AAE), ("AAEV Party of Canada", .AAE),
   ("Democratic Advancement", .DAD),
   ("ATN", .ATN),
   ("Forces et Démocratie - Allier les forces de nos régions", .FED),
   ("VCP", .VCP),
   ("Christian Heritage Party", .CHP), ("CHP Canada", .CHP),
   ("Pour l\x27Indépendance du Québec", .PIQ),
   ("Communist", .COM),
   ("ML", .MXL), ("Marxist-Leninist", .MXL),
   ("UPC", .UPC), ("United Party", .UPC),
   ("Pirate", .PIR), ("Pirate Party", .PIR),
   ("Radical Marijuana", .RMJ),
   ("PC Party", .PCP),
   ("Stop Climate Change", .SCC),
   ("CFF - Canada\x27s Fourth Front", .CFF),
   ("Nationalist", .NAT),
   ("Seniors Party", .SNR),
   ("Canada Party", .CAD),
   ("CAP", .CAP),
   ("The Bridge", .TBR),
   ("PACT", .PACT),
   ("WBP", .WBP),
   ("FPNP", .FPNP),
   ("Work Less Party", .WLP),
   ("PPP", .PPP),
   ("NL First Party", .NLF)]

/-- Serde deserialization of a party label: the first table entry whose
label matches, none otherwise.  The Rust enum has no catch-all variant and
no serde(other) attribute, so an unknown label is a deserialization error. -/
def partyFromLabel (s : String) : Option Party :=
  (partyAliases.find? fun kv => kv.1 == s).map Prod.snd

/-- One raw or fused vote record (struct Poll in the source). -/
structure Poll : Type where
  riding : String
  party : Party
  last_name : String
  first_name : String
  votes : Nat
  deriving DecidableEq, Repr

/-- Poll::fuse keeps every field of self and adds the vote counts. -/
def Poll.fuse (self other : Poll) : Poll :=
  { self with votes := self.votes + other.votes }

/-- Ord for Poll compares riding, then party, then candidate last name;
votes and first name do not participate.  Models the manual Ord impl;
strings compare lexicographically by character list, which agrees with the
Rust byte order on this data. -/
def pollLE (a b : Poll) : Prop :=
  a.riding.data < b.riding.data ∨
    (a.riding.data = b.riding.data ∧
      (a.party.toNat < b.party.toNat ∨
        (a.party.toNat = b.party.toNat ∧ a.last_name.data ≤ b.last_name.data)))

instance (a b : Poll) : Decidable (pollLE a b) :=
  inferInstanceAs (Decidable (a.riding.data < b.riding.data ∨
    (a.riding.data = b.riding.data ∧
      (a.party.toNat < b.party.toNat ∨
        (a.party.toNat = b.party.toNat ∧ a.last_name.data ≤ b.last_name.data)))))

/-- Boolean form of the Poll comparison, used as the sort order. -/
def pollLEb (a b : Poll) : Bool := decide (pollLE a b)

/-- The global sort of the poll list (polls.sort() with the Ord above;
Rust sort is stable, as is mergeSort). -/
def sortPolls (polls : List Poll) : List Poll := polls.mergeSort pollLEb

/-- Grouping of maximal consecutive runs with equal key; models
itertools group_by with key extraction k. -/
def runsByKey {α : Type _} {κ : Type _} [DecidableEq κ] (k : α → κ) : List α → List (List α)
  | [] => []
  | x :: xs =>
    match runsByKey k xs with
    | [] => [[x]]
    | [] :: gs => [x] :: gs
    | (y :: ys) :: gs =>
      if k x = k y then (x :: y :: ys) :: gs else [x] :: (y :: ys) :: gs

/-- Fold of one group by repeated pairwise fuse; models group.reduce(fuse),
which is none exactly on an empty group. -/
def reduceFuse : List Poll → Option Poll
  | [] => none
  | x :: xs => some (xs.foldl Poll.fuse x)

/-- Sum of the vote counts of a poll list. -/
def sumVotes (polls : List Poll) : Nat := (polls.map Poll.votes).sum

/-- The fusion stage of main: sort, group consecutive runs by party alone,
and reduce each run with fuse. -/
def fuseStage (polls : List Poll) : List Poll :=
  (runsByKey Poll.party (sortPolls polls)).filterMap reduceFuse

/-- Candidate record owned by a riding. -/
structure Candidate : Type where
  last_name : String
  first_name : String
  votes : Nat
  deriving DecidableEq, Repr

/-- A riding: name plus the party-to-candidate map.  The association list
order models the arbitrary iteration order of the Rust HashMap. -/
structure Riding : Type where
  name : String
  candidates : List (Party × Candidate)
  deriving DecidableEq, Repr

/-- One step of Iterator::max_by with the vote comparison: keep the
accumulator only when strictly greater, so ties go to the later element. -/
def maxStep (a b : Party × Candidate) : Party × Candidate :=
  if a.2.votes > b.2.votes then a else b

/-- Iterator::max_by over the candidate map in its iteration order; none
models the unwrap panic on an empty map. -/
def maxByVotes : List (Party × Candidate) → Option (Party × Candidate)
  | [] => none
  | x :: xs => some (xs.foldl maxStep x)

/-- Riding::winner over the candidate map in a given iteration order. -/
def winner (cs : List (Party × Candidate)) : Option Party :=
  (maxByVotes cs).map Prod.fst

/-- Riding::was_winner. -/
def was_winner (party : Party) (r : Riding) : Prop :=
  winner r.candidates = some party

instance (party : Party) (r : Riding) : Decidable (was_winner party r) :=
  inferInstanceAs (Decidable (winner r.candidates = some party))

/-- Round a rational to the nearest integer, ties to even: the IEEE-754
default rounding applied to a value scaled into integer position. -/
def rne (s : ℚ) : ℤ :=
  if s - ⌊s⌋ < 1 / 2 then ⌊s⌋
  else if 1 / 2 < s - ⌊s⌋ then ⌊s⌋ + 1
  else if 2 ∣ ⌊s⌋ then ⌊s⌋ else ⌊s⌋ + 1

/-- Round a positive rational to the nearest binary32 value: scale by the
power of two that puts it in the significand range from 2^23 to 2^24,
round to integer with ties to even, and scale back.  The exponent is
unbounded: for data in the usize range of this program no conversion
overflows f32 and no nonzero quotient falls below the smallest normal, so
binary32 overflow and underflow are unreachable and not modelled. -/
def roundPos (q : ℚ) : ℚ :=
  (rne (q / 2 ^ (Int.log 2 q - 23)) : ℚ) * 2 ^ (Int.log 2 q - 23)

/-- Round to nearest binary32, ties to even, extended to every rational by
the sign symmetry of IEEE-754 rounding. -/
def roundF32 (q : ℚ) : ℚ :=
  if q < 0 then -roundPos (-q) else if q = 0 then 0 else roundPos q

/-- The conversion "n as f32". -/
def natToF32 (n : ℕ) : ℚ := roundF32 (n : ℚ)

/-- Subtraction of two finite f32 values: the correctly rounded exact
difference (it cannot overflow for this program's data). -/
def subF32 (a b : ℚ) : ℚ := roundF32 (a - b)

/-- An f32 value as this program produces it: finite with its exact
rational value, an infinity, or NaN. -/
inductive F32 : Type where
  | finite (val : ℚ)
  | inf
  | negInf
  | nan
  deriving DecidableEq, Repr

/-- Division of two finite f32 values per IEEE-754: 0/0 is NaN, division
of a nonzero value by zero is a signed infinity, and otherwise the
quotient is correctly rounded. -/
def divF32 (a b : ℚ) : F32 :=
  if b = 0 then
    if a = 0 then F32.nan else if 0 < a then F32.inf else F32.negInf
  else F32.finite (roundF32 (a / b))

/-- Vote counts of a riding sorted descending (votes.sort_by(|a, b| b.cmp(a))). -/
def sortedVotes (r : Riding) : List Nat :=
  (r.candidates.map fun pc => pc.2.votes).mergeSort fun a b => decide (b ≤ a)

/-- Riding::victory_margin: (votes[0] as f32 - votes[1] as f32) / total as
f32, over the binary32 model; none models the index-out-of-bounds panic
when the riding has fewer than two candidates. -/
def victory_margin (r : Riding) : Option F32 :=
  match sortedVotes r with
  | v0 :: v1 :: rest =>
    some (divF32 (subF32 (natToF32 v0) (natToF32 v1))
      (natToF32 (v0 :: v1 :: rest).sum))
  | _ => none

/-- Riding::total_votes. -/
def Riding.total_votes (r : Riding) : Nat :=
  (r.candidates.map fun pc => pc.2.votes).sum

/-- The ridings function: group the fused polls into consecutive runs by
riding name; each run becomes one Riding whose candidate map collects the
run in order. -/
def ridings (polls : List Poll) : List Riding :=
  (runsByKey Poll.riding polls).filterMap fun g =>
    match g with
    | [] => none
    | x :: xs =>
      some ⟨x.riding,
        (x :: xs).map fun p => (p.party, ⟨p.last_name, p.first_name, p.votes⟩)⟩

/-- Output record of the totals report. -/
structure VoteCount : Type where
  party : Party
  votes : Nat
  ratio : ℚ
  seats : Nat
  deriving DecidableEq, Repr

/-- Output record of the CON+PPC counterfactual report. -/
structure ComboVictory : Type where
  riding : String
  winner : Party
  winner_votes : Nat
  con_ppc_votes : Nat
  difference : Nat
  deriving DecidableEq, Repr

/-- Output record of the victory-margins report. -/
structure VictoryMargin : Type where
  riding : String
  winner : Party
  margin : F32
  deriving DecidableEq, Repr

/-- PartialOrd::partial_cmp on the f32 model: none exactly when an operand
is NaN. -/
def f32Cmp : F32 → F32 → Option Ordering
  | .nan, _ => none
  | _, .nan => none
  | .finite a, .finite b =>
    some (if a < b then Ordering.lt else if a = b then Ordering.eq else Ordering.gt)
  | .finite _, .inf => some Ordering.lt
  | .finite _, .negInf => some Ordering.gt
  | .inf, .finite _ => some Ordering.gt
  | .inf, .inf => some Ordering.eq
  | .inf, .negInf => some Ordering.gt
  | .negInf, .finite _ => some Ordering.lt
  | .negInf, .inf => some Ordering.lt
  | .negInf, .negInf => some Ordering.eq

/-- Comparison used to sort the margin report:
margin.partial_cmp with the unwrap_or(Less) fallback, read as the
"not Greater" boolean the stable sort consumes. -/
def marginLEb (a b : VictoryMargin) : Bool :=
  decide (((f32Cmp a.margin b.margin).getD Ordering.lt) ≠ Ordering.gt)

/-- The per-riding body of ppc_con: skip ridings the Conservatives won,
look up the winner, CON, and PPC candidates with the and_then chain of the
source (skipping on a missing one), keep the riding only when CON + PPC
beats the winner, and build the record.  The bind on winner models the
unwrap in Riding::winner, whose none case is unreachable for ridings built
by the ridings function (runs are nonempty). -/
def comboOf (r : Riding) : Option ComboVictory :=
  if was_winner Party.CON r then none
  else
    (winner r.candidates).bind fun wp =>
      (r.candidates.lookup wp).bind fun win =>
        (r.candidates.lookup Party.CON).bind fun con =>
          (r.candidates.lookup Party.PPC).bind fun ppc =>
            if con.votes + ppc.votes > win.votes then
              some ⟨r.name, wp, win.votes, con.votes + ppc.votes,
                con.votes + ppc.votes - win.votes⟩
            else none

/-- The ppc_con report over a riding set. -/
def ppc_con (rs : List Riding) : List ComboVictory :=
  rs.filterMap comboOf

/-- One record of the victory-margins report; margin is computed before
winner, as in the source closure. -/
def victoryMarginOf (r : Riding) : Option VictoryMargin := do
  let m ← victory_margin r
  let w ← winner r.candidates
  pure ⟨r.name, w, m⟩

/-- The victory_margins report: one record per riding, sorted ascending by
margin.  A none result models the panic of victory_margin (or of winner)
on some riding. -/
def victory_margins (rs : List Riding) : Option (List VictoryMargin) :=
  (rs.mapM victoryMarginOf).map fun ms => ms.mergeSort marginLEb

/-- Accumulated vote total of one party across all ridings (the votes
HashMap of the totals report). -/
def votesAcc (rs : List Riding) (p : Party) : Nat :=
  (rs.map fun r =>
    ((r.candidates.filter fun pc => pc.1 == p).map fun pc => pc.2.votes).sum).sum

/-- Accumulated seat count of one party (the seats HashMap of totals);
lookup with default 0 models seats.remove(..).unwrap_or(0). -/
def seatsAcc (rs : List Riding) (p : Party) : Nat :=
  (rs.filter fun r => winner r.candidates == some p).length

/-- Key set of the votes HashMap: every party fielding a candidate in some
riding, deduplicated. -/
def votesKeys (rs : List Riding) : List Party :=
  ((rs.map fun r => r.candidates.map Prod.fst).flatten).dedup

/-- The totals report.  The order argument is the iteration order of the
votes HashMap (an arbitrary permutation of its key set); the emitted list
follows it, as votes.into_iter() does in the source. -/
def totals (polls : List Poll) (order : List Party) : List VoteCount :=
  let rs := ridings polls
  let total := ((votesKeys rs).map (votesAcc rs)).sum
  order.map fun p =>
    ⟨p, votesAcc rs p, ((votesAcc rs p : Nat) : ℚ) / ((total : Nat) : ℚ), seatsAcc rs p⟩

/-- One raw CSV row before deserialization; only the party label is
fallible in the model. -/
structure RawRow : Type where
  riding : String
  party_label : String
  last_name : String
  first_name : String
  votes : Nat
  deriving DecidableEq, Repr

/-- Serde deserialization of one row into a Poll; fails on an unknown
party label, as the Rust enum has no catch-all variant. -/
def parseRow (row : RawRow) : Except String Poll :=
  match partyFromLabel row.party_label with
  | some p => .ok ⟨row.riding, p, row.last_name, row.first_name, row.votes⟩
  | none => .error ("unknown variant " ++ row.party_label)

/-- Ingestion: collect::<Result<Vec<Poll>, _>>()? stops at the first row
that fails to deserialize and aborts the run with that error. -/
def ingest : List RawRow → Except String (List Poll)
  | [] => .ok []
  | row :: rows =>
    match parseRow row with
    | .error e => .error e
    | .ok p =>
      match ingest rows with
      | .error e => .error e
      | .ok ps => .ok (p :: ps)

/-! Concrete inputs used by witnesses and counterexamples. -/

/-- Two polls in one riding for the same party under different candidate
last names: two distinct fusion groups per the riding/party/last-name key. -/
def pollsTwoLIB : List Poll :=
  [⟨"A", Party.LIB, "X", "Xa", 1⟩, ⟨"A", Party.LIB, "Y", "Ya", 2⟩]

/-- One riding with two parties, for the totals report. -/
def pollsOneRiding : List Poll :=
  [⟨"R", Party.LIB, "A", "Ann", 10⟩, ⟨"R", Party.CON, "B", "Bob", 5⟩]

/-- A riding with a single candidate. -/
def ridingSingle : Riding := ⟨"R", [(Party.LIB, ⟨"Solo", "S", 5⟩)]⟩

/-- A riding with two candidates, CON 25 and LIB 20. -/
def ridingClose : Riding :=
  ⟨"R1", [(Party.CON, ⟨"Carl", "C", 25⟩), (Party.LIB, ⟨"Lea", "L", 20⟩)]⟩

/-- A riding with two candidates and zero votes each: its margin reaches
the 0.0/0.0 division. -/
def ridingZero : Riding :=
  ⟨"Z", [(Party.LIB, ⟨"Lo", "L", 0⟩), (Party.CON, ⟨"Co", "C", 0⟩)]⟩

/-- A riding whose top two counts are 16777217 and 16777216: both convert
to the same f32 value, as 16777217 is the first natural number binary32
cannot represent. -/
def ridingBig : Riding :=
  ⟨"B", [(Party.LIB, ⟨"Lo", "L", 16777217⟩), (Party.CON, ⟨"Co", "C", 16777216⟩)]⟩

/-- Counterfactual scenario riding: LIB wins with 30, CON 12, PPC 10. -/
def ridingR2 : Riding :=
  ⟨"R2", [(Party.LIB, ⟨"Lea", "L", 30⟩), (Party.CON, ⟨"Carl", "C", 12⟩),
          (Party.PPC, ⟨"Pat", "P", 10⟩)]⟩

/-- Counterfactual scenario riding: LIB wins with 20, CON 12, PPC 10. -/
def ridingR3 : Riding :=
  ⟨"R3", [(Party.LIB, ⟨"Lou", "L", 20⟩), (Party.CON, ⟨"Cam", "C", 12⟩),
          (Party.PPC, ⟨"Pia", "P", 10⟩)]⟩

/-- Expected counterfactual record for ridingR3. -/
def comboR3 : ComboVictory := ⟨"R3", Party.LIB, 20, 22, 2⟩

/-- Another counterfactual riding: NDP wins with 18, CON 10, PPC 9. -/
def ridingR4 : Riding :=
  ⟨"R4", [(Party.NDP, ⟨"Nina", "N", 18⟩), (Party.CON, ⟨"Cid", "C", 10⟩),
          (Party.PPC, ⟨"Paz", "P", 9⟩)]⟩

/-- Expected counterfactual record for ridingR4. -/
def comboR4 : ComboVictory := ⟨"R4", Party.NDP, 18, 19, 1⟩

/-- A raw row whose party label matches no known name or alias. -/
def rowUnknown : RawRow := ⟨"R", "Zebra Party", "Zed", "Z", 5⟩

/-! Helper lemmas about the grouping of consecutive runs. -/

theorem runsByKey_cons {α κ : Type _} [DecidableEq κ] (k : α → κ) (x : α) (xs : List α) :
    runsByKey k (x :: xs) =
      match runsByKey k xs with
      | [] => [[x]]
      | [] :: gs => [x] :: gs
      | (y :: ys) :: gs =>
        if k x = k y then (x :: y :: ys) :: gs else [x] :: (y :: ys) :: gs := rfl

theorem runsByKey_ne_nil {α κ : Type _} [DecidableEq κ] (k : α → κ) (l : List α) :
    ∀ g ∈ runsByKey k l, g ≠ [] := by
  induction l with
  | nil => intro g hg; simp [runsByKey] at hg
  | cons x xs ih =>
    intro g hg
    rcases hr : runsByKey k xs with _ | ⟨g₀, gs⟩
    · simp only [runsByKey, hr] at hg
      simp at hg
      simp [hg]
    · cases g₀ with
      | nil =>
        have hmem : [] ∈ runsByKey k xs := by rw [hr]; exact List.mem_cons_self _ _
        exact absurd rfl (ih [] hmem)
      | cons y ys =>
        simp only [runsByKey, hr] at hg
        by_cases hxy : k x = k y <;> simp [hxy] at hg
        · rcases hg with hg | hg
          · simp [hg]
          · exact ih g (by rw [hr]; exact List.mem_cons_of_mem _ hg)
        · rcases hg with hg | hg | hg
          · simp [hg]
          · simp [hg]
          · exact ih g (by rw [hr]; exact List.mem_cons_of_mem _ hg)

theorem runsByKey_flatten {α κ : Type _} [DecidableEq κ] (k : α → κ) (l : List α) :
    (runsByKey k l).flatten = l := by
  induction l with
  | nil => rfl
  | cons x xs ih =>
    rcases hr : runsByKey k xs with _ | ⟨g₀, gs⟩
    · rw [hr] at ih
      simp only [List.flatten_nil] at ih
      simp only [runsByKey, hr, List.flatten_cons, List.flatten_nil,
        List.append_nil, List.flatten]
      rw [← ih]
    · cases g₀ with
      | nil =>
        have hmem : [] ∈ runsByKey k xs := by rw [hr]; exact List.mem_cons_self _ _
        exact absurd rfl (runsByKey_ne_nil k xs [] hmem)
      | cons y ys =>
        rw [hr] at ih
        simp only [runsByKey, hr]
        by_cases hxy : k x = k y <;> simp only [hxy, if_true, if_false,
          List.flatten_cons, reduceIte] <;> simp [List.flatten_cons] at ih ⊢ <;>
          simp [ih]

theorem runsByKey_same_key {α κ : Type _} [DecidableEq κ] (k : α → κ) (l : List α) :
    ∀ g ∈ runsByKey k l, ∀ a ∈ g, ∀ b ∈ g, k a = k b := by
  induction l with
  | nil => intro g hg; simp [runsByKey] at hg
  | cons x xs ih =>
    intro g hg a ha b hb
    rcases hr : runsByKey k xs with _ | ⟨g₀, gs⟩
    · simp only [runsByKey, hr] at hg
      simp at hg
      subst hg
      simp at ha hb
      rw [ha, hb]
    · cases g₀ with
      | nil =>
        have hmem : [] ∈ runsByKey k xs := by rw [hr]; exact List.mem_cons_self _ _
        exact absurd rfl (runsByKey_ne_nil k xs [] hmem)
      | cons y ys =>
        have hyrun : (y :: ys) ∈ runsByKey k xs := by
          rw [hr]; exact List.mem_cons_self _ _
        have hkey : ∀ a ∈ y :: ys, k a = k y := fun a ha =>
          ih (y :: ys) hyrun a ha y (List.mem_cons_self _ _)
        simp only [runsByKey, hr] at hg
        by_cases hxy : k x = k y <;> simp [hxy] at hg
        · rcases hg with hg | hg
          · subst hg
            have key : ∀ c ∈ x :: y :: ys, k c = k y := by
              intro c hc
              rcases List.mem_cons.mp hc with hc | hc
              · rw [hc]; exact hxy
              · exact hkey c hc
            rw [key a ha, key b hb]
          · exact ih g (by rw [hr]; exact List.mem_cons_of_mem _ hg) a ha b hb
        · rcases hg with hg | hg | hg
          · subst hg
            simp at ha hb
            rw [ha, hb]
          · subst hg
            rw [hkey a ha, hkey b hb]
          · exact ih g (by rw [hr]; exact List.mem_cons_of_mem _ hg) a ha b hb

theorem runsByKey_chain_ne {α κ : Type _} [DecidableEq κ] (k : α → κ) (l : List α) :
    List.Chain' (fun g h => ∀ a ∈ g, ∀ b ∈ h, k a ≠ k b) (runsByKey k l) := by
  induction l with
  | nil => simp [runsByKey]
  | cons x xs ih =>
    rcases hr : runsByKey k xs with _ | ⟨g₀, gs⟩
    · simp [runsByKey, hr]
    · cases g₀ with
      | nil =>
        have hmem : [] ∈ runsByKey k xs := by rw [hr]; exact List.mem_cons_self _ _
        exact absurd rfl (runsByKey_ne_nil k xs [] hmem)
      | cons y ys =>
        rw [hr] at ih
        have hyrun : (y :: ys) ∈ runsByKey k xs := by
          rw [hr]; exact List.mem_cons_self _ _
        have hkey : ∀ a ∈ y :: ys, k a = k y := fun a ha =>
          runsByKey_same_key k xs (y :: ys) hyrun a ha y (List.mem_cons_self _ _)
        simp only [runsByKey, hr]
        by_cases hxy : k x = k y <;> simp only [hxy, reduceIte, if_true, if_false]
        · rcases List.chain'_cons'.mp ih with ⟨hhead, htail⟩
          refine List.chain'_cons'.mpr ⟨?_, htail⟩
          intro h hh a ha b hb
          rcases List.mem_cons.mp ha with ha' | ha'
          · subst ha'
            rw [hxy]
            exact hhead h hh y (List.mem_cons_self _ _) b hb
          · exact hhead h hh a ha' b hb
        · refine List.chain'_cons.mpr ⟨?_, ih⟩
          intro a ha b hb
          simp at ha
          subst ha
          rw [hkey b hb]
          exact hxy

theorem runsByKey_of_chain_ne {α κ : Type _} [DecidableEq κ] (k : α → κ) :
    ∀ l : List α, List.Chain' (fun a b => k a ≠ k b) l →
      runsByKey k l = l.map fun a => [a] := by
  intro l
  induction l with
  | nil => intro _; rfl
  | cons x xs ih =>
    intro hchain
    rcases List.chain'_cons'.mp hchain with ⟨hhead, htail⟩
    cases xs with
    | nil => rfl
    | cons y ys =>
      have ih' := ih htail
      have hxy : k x ≠ k y := hhead y rfl
      rw [runsByKey_cons, ih']
      simp [hxy]

/-! Helper lemmas about fuse and vote sums. -/

theorem reduceFuse_cons (x : Poll) (xs : List Poll) :
    reduceFuse (x :: xs) = some { x with votes := x.votes + sumVotes xs } := by
  induction xs generalizing x with
  | nil => simp [reduceFuse, sumVotes]
  | cons y ys ih =>
    calc reduceFuse (x :: y :: ys) = reduceFuse (x.fuse y :: ys) := rfl
    _ = some { x.fuse y with votes := (x.fuse y).votes + sumVotes ys } := ih (x.fuse y)
    _ = some { x with votes := x.votes + sumVotes (y :: ys) } := by
        simp [Poll.fuse, sumVotes, Nat.add_assoc]

theorem sumVotes_cons (x : Poll) (xs : List Poll) :
    sumVotes (x :: xs) = x.votes + sumVotes xs := by
  simp [sumVotes]

theorem sumVotes_filterMap_reduceFuse (gs : List (List Poll)) :
    sumVotes (gs.filterMap reduceFuse) = (gs.map sumVotes).sum := by
  induction gs with
  | nil => rfl
  | cons g gs ih =>
    cases g with
    | nil => simpa [reduceFuse, List.filterMap_cons, sumVotes] using ih
    | cons x xs =>
      rw [List.filterMap_cons, reduceFuse_cons]
      simp only [List.map_cons, List.sum_cons, sumVotes_cons] at *
      simp [ih]

theorem sumVotes_flatten (gs : List (List Poll)) :
    sumVotes gs.flatten = (gs.map sumVotes).sum := by
  induction gs with
  | nil => rfl
  | cons g gs ih =>
    simp only [List.flatten_cons, List.map_cons, List.sum_cons, ← ih, sumVotes,
      List.map_append, List.sum_append]

theorem sumVotes_perm {l₁ l₂ : List Poll} (h : l₁.Perm l₂) :
    sumVotes l₁ = sumVotes l₂ :=
  (h.map Poll.votes).sum_eq

/-! Helper lemmas about the Poll ordering. -/

theorem pollLE_trans {a b c : Poll} (h₁ : pollLE a b) (h₂ : pollLE b c) :
    pollLE a c := by
  unfold pollLE at *
  rcases h₁ with h₁ | ⟨e₁, h₁⟩ <;> rcases h₂ with h₂ | ⟨e₂, h₂⟩
  · exact Or.inl (lt_trans h₁ h₂)
  · exact Or.inl (lt_of_lt_of_le h₁ (le_of_eq e₂))
  · exact Or.inl (lt_of_le_of_lt (le_of_eq e₁) h₂)
  · refine Or.inr ⟨e₁.trans e₂, ?_⟩
    rcases h₁ with h₁ | ⟨f₁, h₁⟩ <;> rcases h₂ with h₂ | ⟨f₂, h₂⟩
    · exact Or.inl (lt_trans h₁ h₂)
    · exact Or.inl (lt_of_lt_of_le h₁ (le_of_eq f₂))
    · exact Or.inl (lt_of_le_of_lt (le_of_eq f₁) h₂)
    · exact Or.inr ⟨f₁.trans f₂, le_trans h₁ h₂⟩

theorem pollLE_total (a b : Poll) : pollLE a b ∨ pollLE b a := by
  unfold pollLE
  rcases lt_trichotomy a.riding.data b.riding.data with h | h | h
  · exact Or.inl (Or.inl h)
  · rcases lt_trichotomy a.party.toNat b.party.toNat with h' | h' | h'
    · exact Or.inl (Or.inr ⟨h, Or.inl h'⟩)
    · rcases le_total a.last_name.data b.last_name.data with h'' | h''
      · exact Or.inl (Or.inr ⟨h, Or.inr ⟨h', h''⟩⟩)
      · exact Or.inr (Or.inr ⟨h.symm, Or.inr ⟨h'.symm, h''⟩⟩)
    · exact Or.inr (Or.inr ⟨h.symm, Or.inl h'⟩)
  · exact Or.inr (Or.inl h)

theorem pollLEb_trans (a b c : Poll) (h₁ : pollLEb a b) (h₂ : pollLEb b c) :
    pollLEb a c := by
  simp only [pollLEb, decide_eq_true_eq] at *
  exact pollLE_trans h₁ h₂

theorem pollLEb_total (a b : Poll) : pollLEb a b || pollLEb b a := by
  simp only [pollLEb, Bool.or_eq_true, decide_eq_true_eq]
  exact pollLE_total a b

theorem pollLEb_votes (x y : Poll) (n m : Nat) :
    pollLEb { x with votes := n } { y with votes := m } = pollLEb x y := by
  simp [pollLEb, pollLE]

/-! Structure of the fused poll list: it is sorted, and no two adjacent
fused polls share a party. -/

theorem pairwise_fuseStage (polls : List Poll) :
    List.Pairwise (fun a b => pollLEb a b = true) (fuseStage polls) := by
  have hs : List.Pairwise (fun a b => pollLEb a b = true) (sortPolls polls) :=
    List.sorted_mergeSort pollLEb_trans pollLEb_total polls
  have hflat := runsByKey_flatten Poll.party (sortPolls polls)
  have hjoin : List.Pairwise (fun a b => pollLEb a b = true)
      (runsByKey Poll.party (sortPolls polls)).flatten := by
    rw [hflat]; exact hs
  have hall := (List.pairwise_flatten.mp hjoin).2
  refine List.pairwise_filterMap.mpr (List.Pairwise.imp ?_ hall)
  intro g h hgh p hp q hq
  cases g with
  | nil => simp [reduceFuse] at hp
  | cons x xs =>
    cases h with
    | nil => simp [reduceFuse] at hq
    | cons y ys =>
      rw [reduceFuse_cons] at hp hq
      simp only [Option.mem_def, Option.some_inj] at hp hq
      subst hp
      subst hq
      rw [pollLEb_votes]
      exact hgh x (List.mem_cons_self _ _) y (List.mem_cons_self _ _)

theorem chain_filterMap_reduceFuse :
    ∀ gs : List (List Poll), (∀ g ∈ gs, g ≠ []) →
      List.Chain' (fun g h => ∀ a ∈ g, ∀ b ∈ h, a.party ≠ b.party) gs →
      List.Chain' (fun p q => p.party ≠ q.party) (gs.filterMap reduceFuse) := by
  intro gs
  induction gs with
  | nil => intro _ _; simp
  | cons g gs ih =>
    intro hne hchain
    rcases List.chain'_cons'.mp hchain with ⟨hhead, htail⟩
    cases g with
    | nil => exact absurd rfl (hne [] (List.mem_cons_self _ _))
    | cons x xs =>
      rw [List.filterMap_cons, reduceFuse_cons]
      refine List.chain'_cons'.mpr
        ⟨?_, ih (fun g hg => hne g (List.mem_cons_of_mem _ hg)) htail⟩
      intro q hq
      cases gs with
      | nil => simp at hq
      | cons h t =>
        cases h with
        | nil => exact absurd rfl (hne [] (by simp))
        | cons y ys =>
          rw [List.filterMap_cons, reduceFuse_cons] at hq
          simp only [List.head?_cons, Option.mem_def, Option.some_inj] at hq
          subst hq
          have hxy : x.party ≠ y.party :=
            hhead (y :: ys) (by simp) x (List.mem_cons_self _ _)
              y (List.mem_cons_self _ _)
          simpa using hxy

theorem chain_ne_fuseStage (polls : List Poll) :
    List.Chain' (fun p q => p.party ≠ q.party) (fuseStage polls) :=
  chain_filterMap_reduceFuse _ (runsByKey_ne_nil Poll.party (sortPolls polls))
    (runsByKey_chain_ne Poll.party (sortPolls polls))

theorem filterMap_reduceFuse_singletons (l : List Poll) :
    (l.map fun a => [a]).filterMap reduceFuse = l := by
  induction l with
  | nil => rfl
  | cons x xs ih => simp [List.filterMap_cons, reduceFuse, ih]

/-- C1: conservation of votes through fusion — for every input poll list,
the sum of vote counts across all fused Polls equals the sum of vote
counts across all input poll rows. -/
theorem fuseStage_conserves_votes (polls : List Poll) :
    sumVotes (fuseStage polls) = sumVotes polls := by
  have h1 := sumVotes_filterMap_reduceFuse (runsByKey Poll.party (sortPolls polls))
  have h2 := sumVotes_flatten (runsByKey Poll.party (sortPolls polls))
  have h3 := runsByKey_flatten Poll.party (sortPolls polls)
  have h4 : sumVotes (sortPolls polls) = sumVotes polls :=
    sumVotes_perm (List.mergeSort_perm polls pollLEb)
  show sumVotes ((runsByKey Poll.party (sortPolls polls)).filterMap reduceFuse)
      = sumVotes polls
  rw [h1, ← h2, h3, h4]

/-- C9: idempotence of fusion — applying the fusion stage (sort then
contiguous-run fold) to a list that is already the output of fusion gives
the same list unchanged: every fused poll forms a singleton run and fuses
to itself. -/
theorem fuseStage_idempotent (polls : List Poll) :
    fuseStage (fuseStage polls) = fuseStage polls := by
  have hsorted := pairwise_fuseStage polls
  have hchain := chain_ne_fuseStage polls
  show (runsByKey Poll.party (sortPolls (fuseStage polls))).filterMap reduceFuse
      = fuseStage polls
  have hsort : sortPolls (fuseStage polls) = fuseStage polls :=
    List.mergeSort_of_sorted hsorted
  rw [hsort, runsByKey_of_chain_ne Poll.party (fuseStage polls) hchain]
  exact filterMap_reduceFuse_singletons _

/-! Helper lemmas about winner selection. -/

theorem foldl_maxStep_spec (xs : List (Party × Candidate)) :
    ∀ a : Party × Candidate,
      (xs.foldl maxStep a) ∈ a :: xs ∧
      a.2.votes ≤ (xs.foldl maxStep a).2.votes ∧
      ∀ f ∈ xs, f.2.votes ≤ (xs.foldl maxStep a).2.votes := by
  induction xs with
  | nil =>
    intro a
    exact ⟨List.mem_cons_self _ _, le_refl _, by simp⟩
  | cons y ys ih =>
    intro a
    rcases ih (maxStep a y) with ⟨hmem, hle, hall⟩
    have hma : a.2.votes ≤ (maxStep a y).2.votes := by
      unfold maxStep; split <;> omega
    have hmy : y.2.votes ≤ (maxStep a y).2.votes := by
      unfold maxStep; split <;> omega
    have hor : maxStep a y = a ∨ maxStep a y = y := by
      unfold maxStep; split <;> simp
    refine ⟨?_, ?_, ?_⟩
    · show ys.foldl maxStep (maxStep a y) ∈ a :: y :: ys
      rcases List.mem_cons.mp hmem with h1 | h1
      · rw [h1]
        rcases hor with h2 | h2 <;> rw [h2] <;> simp
      · exact List.mem_cons_of_mem _ (List.mem_cons_of_mem _ h1)
    · exact le_trans hma hle
    · intro f hf
      rcases List.mem_cons.mp hf with h1 | h1
      · rw [h1]; exact le_trans hmy hle
      · exact hall f h1

theorem maxByVotes_spec {cs : List (Party × Candidate)} {e : Party × Candidate}
    (h : maxByVotes cs = some e) :
    e ∈ cs ∧ ∀ f ∈ cs, f.2.votes ≤ e.2.votes := by
  cases cs with
  | nil => simp [maxByVotes] at h
  | cons x xs =>
    simp only [maxByVotes, Option.some_inj] at h
    subst h
    rcases foldl_maxStep_spec xs x with ⟨hmem, hle, hall⟩
    refine ⟨hmem, ?_⟩
    intro f hf
    rcases List.mem_cons.mp hf with hf | hf
    · rw [hf]; exact hle
    · exact hall f hf

theorem winner_eq_of_unique (cs : List (Party × Candidate)) (p : Party)
    (c : Candidate) (hm : (p, c) ∈ cs)
    (hu : ∀ e ∈ cs, e ≠ (p, c) → e.2.votes < c.votes) :
    winner cs = some p := by
  rcases hOe : maxByVotes cs with _ | e
  · cases cs with
    | nil => simp at hm
    | cons x xs => simp [maxByVotes] at hOe
  · rcases maxByVotes_spec hOe with ⟨hmem, hmax⟩
    by_cases heq : e = (p, c)
    · subst heq; simp [winner, hOe]
    · have h1 := hu e hmem heq
      have h2 := hmax (p, c) hm
      simp at h2
      omega

/-- C5 (amended): for every riding with at least one candidate, winner
returns a party whose candidate attains the maximum vote count over the
candidate map; the choice among tied maxima is the last maximal entry in
the map's iteration order, which is data-order-dependent (see the
counterexample). -/
theorem winner_attains_max (cs : List (Party × Candidate)) (h : cs ≠ []) :
    ∃ p c, winner cs = some p ∧ (p, c) ∈ cs ∧ ∀ e ∈ cs, e.2.votes ≤ c.votes := by
  rcases hOe : maxByVotes cs with _ | e
  · cases cs with
    | nil => exact absurd rfl h
    | cons x xs => simp [maxByVotes] at hOe
  · rcases maxByVotes_spec hOe with ⟨hmem, hmax⟩
    exact ⟨e.1, e.2, by simp [winner, hOe], by simpa using hmem, hmax⟩

/-- Witness for C5 (amended) at a one-candidate riding. -/
theorem winner_attains_max_witness :
    ([(Party.LIB, ⟨"Alva", "A", 10⟩)] : List (Party × Candidate)) ≠ [] ∧
    ∃ p c, winner [(Party.LIB, ⟨"Alva", "A", 10⟩)] = some p ∧
      (p, c) ∈ ([(Party.LIB, ⟨"Alva", "A", 10⟩)] : List (Party × Candidate)) ∧
      ∀ e ∈ ([(Party.LIB, ⟨"Alva", "A", 10⟩)] : List (Party × Candidate)),
        e.2.votes ≤ c.votes :=
  ⟨by decide, winner_attains_max _ (by decide)⟩

/-- C5 (counterexample): with two candidates tied at the maximum, listed in
Party enumeration order, winner returns the LAST maximal entry (CON), not
the first one in enumeration order (LIB) as the claim states. -/
theorem winner_tie_returns_last_cex :
    winner [(Party.LIB, ⟨"Alva", "A", 10⟩), (Party.CON, ⟨"Bo", "B", 10⟩)]
        = some Party.CON ∧
      Party.LIB.toNat < Party.CON.toNat ∧ Party.CON ≠ Party.LIB := by
  decide

/-- C4 (amended): winner selection is independent of the hash-map
iteration order whenever the maximum vote count is attained by exactly one
entry: on any two iteration orders of the same candidate set it returns
that entry's party. -/
theorem winner_indep_of_unique_max (cs₁ cs₂ : List (Party × Candidate))
    (p : Party) (c : Candidate) (hperm : cs₁.Perm cs₂) (hm : (p, c) ∈ cs₁)
    (hu : ∀ e ∈ cs₁, e ≠ (p, c) → e.2.votes < c.votes) :
    winner cs₁ = some p ∧ winner cs₂ = some p :=
  ⟨winner_eq_of_unique cs₁ p c hm hu,
   winner_eq_of_unique cs₂ p c (hperm.mem_iff.mp hm)
     fun e he hne => hu e (hperm.mem_iff.mpr he) hne⟩

/-- Witness for C4 (amended): two iteration orders of the same two-entry
candidate map with a unique maximum give the same winner. -/
theorem winner_indep_of_unique_max_witness :
    ([(Party.LIB, ⟨"Alva", "A", 10⟩), (Party.CON, ⟨"Bo", "B", 5⟩)] :
        List (Party × Candidate)).Perm
      [(Party.CON, ⟨"Bo", "B", 5⟩), (Party.LIB, ⟨"Alva", "A", 10⟩)] ∧
    winner [(Party.LIB, ⟨"Alva", "A", 10⟩), (Party.CON, ⟨"Bo", "B", 5⟩)]
        = some Party.LIB ∧
    winner [(Party.CON, ⟨"Bo", "B", 5⟩), (Party.LIB, ⟨"Alva", "A", 10⟩)]
        = some Party.LIB := by
  refine ⟨by decide, ?_⟩
  exact winner_indep_of_unique_max _ _ Party.LIB ⟨"Alva", "A", 10⟩
    (by decide) (by decide) (by decide)

/-! Fusion grouping key (C2). -/

theorem length_filterMap_reduceFuse (gs : List (List Poll))
    (h : ∀ g ∈ gs, g ≠ []) :
    (gs.filterMap reduceFuse).length = gs.length := by
  induction gs with
  | nil => rfl
  | cons g gs ih =>
    cases g with
    | nil => exact absurd rfl (h [] (List.mem_cons_self _ _))
    | cons x xs =>
      rw [List.filterMap_cons, reduceFuse_cons]
      simp [ih fun g hg => h g (List.mem_cons_of_mem _ hg)]

/-- C2 (counterexample): two polls of the same riding and party with
DIFFERENT candidate last names form two distinct fusion groups under the
claimed riding/party/last-name key, yet the fusion stage merges them into
a single Poll (the run key is the party alone): the group with last name Y
holds 2 votes in the input but no fused Poll carries last name Y. -/
theorem fusion_groups_by_party_only_cex :
    fuseStage pollsTwoLIB = [⟨"A", Party.LIB, "X", "Xa", 3⟩] ∧
    (∀ q ∈ fuseStage pollsTwoLIB, q.last_name ≠ "Y") ∧
    sumVotes (pollsTwoLIB.filter fun q => q.last_name == "Y") = 2 := by
  have hs : sortPolls pollsTwoLIB = pollsTwoLIB :=
    List.mergeSort_of_sorted (by decide)
  have hE : fuseStage pollsTwoLIB = [⟨"A", Party.LIB, "X", "Xa", 3⟩] := by
    show (runsByKey Poll.party (sortPolls pollsTwoLIB)).filterMap reduceFuse
        = [⟨"A", Party.LIB, "X", "Xa", 3⟩]
    rw [hs]
    decide
  refine ⟨hE, ?_, by decide⟩
  rw [hE]
  decide

/-- C2 (amended): after the sort by riding, party and last name, the
fusion groups are the maximal consecutive runs of polls with equal party
(last name and riding are not part of the run key); every run fuses to
exactly one Poll carrying the first member's riding and names and the sum
of the run's votes, and the fused list has exactly one Poll per run. -/
theorem fuseStage_run_spec (polls : List Poll) (x : Poll) (xs : List Poll)
    (hmem : (x :: xs) ∈ runsByKey Poll.party (sortPolls polls)) :
    (∀ q ∈ x :: xs, q.party = x.party) ∧
    reduceFuse (x :: xs) = some { x with votes := x.votes + sumVotes xs } ∧
    (fuseStage polls).length = (runsByKey Poll.party (sortPolls polls)).length := by
  refine ⟨?_, reduceFuse_cons x xs,
    length_filterMap_reduceFuse _ (runsByKey_ne_nil Poll.party (sortPolls polls))⟩
  intro q hq
  exact runsByKey_same_key Poll.party (sortPolls polls) _ hmem q hq
    x (List.mem_cons_self _ _)

/-- Witness for C2 (amended) at the two-poll input, whose single run is
the whole list. -/
theorem fuseStage_run_spec_witness :
    ((⟨"A", Party.LIB, "X", "Xa", 1⟩ :: [⟨"A", Party.LIB, "Y", "Ya", 2⟩] : List Poll)
        ∈ runsByKey Poll.party (sortPolls pollsTwoLIB)) ∧
    ((∀ q ∈ (⟨"A", Party.LIB, "X", "Xa", 1⟩ :: [⟨"A", Party.LIB, "Y", "Ya", 2⟩] :
        List Poll), q.party = Party.LIB) ∧
      reduceFuse (⟨"A", Party.LIB, "X", "Xa", 1⟩ :: [⟨"A", Party.LIB, "Y", "Ya", 2⟩])
        = some ⟨"A", Party.LIB, "X", "Xa", 3⟩ ∧
      (fuseStage pollsTwoLIB).length
        = (runsByKey Poll.party (sortPolls pollsTwoLIB)).length) := by
  have hs : sortPolls pollsTwoLIB = pollsTwoLIB :=
    List.mergeSort_of_sorted (by decide)
  have hmem : (⟨"A", Party.LIB, "X", "Xa", 1⟩ ::
      [⟨"A", Party.LIB, "Y", "Ya", 2⟩] : List Poll)
      ∈ runsByKey Poll.party (sortPolls pollsTwoLIB) := by
    rw [hs]; decide
  exact ⟨hmem, fuseStage_run_spec pollsTwoLIB _ _ hmem⟩

/-! Victory margins (C3, C8). -/

/-- C3 (code evaluation): on a riding set containing a single-candidate
riding, the victory-margins report hits the votes[1] index panic (modelled
by none) instead of excluding the riding as the claim requires. -/
theorem victory_margins_single_candidate_panics :
    victory_margins [ridingSingle] = none := by
  have hsv : sortedVotes ridingSingle = [5] := by
    show List.mergeSort [5] (fun a b => decide (b ≤ a)) = [5]
    exact List.mergeSort_of_sorted (by decide)
  have hvm : victory_margin ridingSingle = none := by
    unfold victory_margin
    rw [hsv]
  have hmo : victoryMarginOf ridingSingle = none := by
    unfold victoryMarginOf
    rw [hvm]
    rfl
  unfold victory_margins
  rw [List.mapM_cons, hmo]
  rfl

theorem descNatB_trans (a b c : Nat) (h₁ : decide (b ≤ a) = true)
    (h₂ : decide (c ≤ b) = true) : decide (c ≤ a) = true := by
  simp only [decide_eq_true_eq] at *
  omega

theorem descNatB_total (a b : Nat) :
    (decide (b ≤ a) || decide (a ≤ b)) = true := by
  simp only [Bool.or_eq_true, decide_eq_true_eq]
  omega

/-! Rounding lemmas for the binary32 model. -/

theorem rne_intCast (k : ℤ) : rne (k : ℚ) = k := by
  unfold rne
  rw [Int.floor_intCast]
  norm_num

theorem rne_natCast (k : ℕ) : rne (k : ℚ) = k := by
  have h : ((k:ℕ):ℚ) = (((k:ℕ):ℤ):ℚ) := by push_cast; ring
  rw [h, rne_intCast]

theorem floor_le_rne (s : ℚ) : ⌊s⌋ ≤ rne s := by
  unfold rne
  split_ifs <;> omega

theorem rne_le_add_half (s : ℚ) : (rne s : ℚ) ≤ s + 1 / 2 := by
  have hfl := Int.floor_le s
  unfold rne
  split_ifs with h1 h2 h3
  · linarith
  · push_cast
    linarith
  · linarith
  · push_cast
    linarith

theorem log2_eq_of {q : ℚ} {z : ℤ} (hq : 0 < q) (h1 : (2:ℚ) ^ z ≤ q)
    (h2 : q < (2:ℚ) ^ (z + 1)) : Int.log 2 q = z := by
  have hcast : ((2:ℕ):ℚ) = (2:ℚ) := by norm_num
  have ha : Int.log 2 q < z + 1 := by
    rw [← Int.lt_zpow_iff_log_lt one_lt_two hq, hcast]
    exact h2
  have hb : ¬ Int.log 2 q < z := by
    intro hlt
    have hsmall : q < (2:ℚ) ^ z := by
      rw [← hcast]
      exact (Int.lt_zpow_iff_log_lt one_lt_two hq).mpr hlt
    linarith
  omega

theorem scaled_lower (q : ℚ) (hq : 0 < q) :
    (2:ℚ) ^ (23:ℤ) ≤ q / 2 ^ (Int.log 2 q - 23) := by
  have h1 : ((2:ℕ):ℚ) ^ Int.log 2 q ≤ q := Int.zpow_log_le_self one_lt_two hq
  have hcast : ((2:ℕ):ℚ) = (2:ℚ) := by norm_num
  rw [hcast] at h1
  have hp : (0:ℚ) < 2 ^ (Int.log 2 q - 23) := by positivity
  rw [le_div_iff₀ hp]
  calc (2:ℚ) ^ (23:ℤ) * 2 ^ (Int.log 2 q - 23)
      = 2 ^ ((23:ℤ) + (Int.log 2 q - 23)) := (zpow_add₀ two_ne_zero _ _).symm
    _ = 2 ^ Int.log 2 q := by congr 1; omega
    _ ≤ q := h1

theorem scaled_upper (q : ℚ) :
    q / 2 ^ (Int.log 2 q - 23) < (2:ℚ) ^ (24:ℤ) := by
  have h2 : q < ((2:ℕ):ℚ) ^ (Int.log 2 q + 1) := Int.lt_zpow_succ_log_self one_lt_two q
  have hcast : ((2:ℕ):ℚ) = (2:ℚ) := by norm_num
  rw [hcast] at h2
  have hp : (0:ℚ) < 2 ^ (Int.log 2 q - 23) := by positivity
  rw [div_lt_iff₀ hp]
  calc q < 2 ^ (Int.log 2 q + 1) := h2
    _ = 2 ^ ((24:ℤ) + (Int.log 2 q - 23)) := by congr 1; omega
    _ = (2:ℚ) ^ (24:ℤ) * 2 ^ (Int.log 2 q - 23) := zpow_add₀ two_ne_zero _ _

theorem roundPos_pos (q : ℚ) (hq : 0 < q) : 0 < roundPos q := by
  have hlo := scaled_lower q hq
  have hp : (0:ℚ) < 2 ^ (Int.log 2 q - 23) := by positivity
  unfold roundPos
  have h1 : (0:ℤ) < ⌊q / 2 ^ (Int.log 2 q - 23)⌋ := by
    have hone : ((1:ℤ):ℚ) ≤ q / 2 ^ (Int.log 2 q - 23) := by
      calc ((1:ℤ):ℚ) ≤ (2:ℚ) ^ (23:ℤ) := by norm_num
        _ ≤ _ := hlo
    have := Int.le_floor.mpr hone
    omega
  have h2 : (0:ℤ) < rne (q / 2 ^ (Int.log 2 q - 23)) :=
    lt_of_lt_of_le h1 (floor_le_rne _)
  have h3 : (0:ℚ) < (rne (q / 2 ^ (Int.log 2 q - 23)) : ℚ) := by exact_mod_cast h2
  exact mul_pos h3 hp

theorem roundPos_le_zpow (q : ℚ) :
    roundPos q ≤ (2:ℚ) ^ (Int.log 2 q + 1) := by
  have hhi := scaled_upper q
  have hp : (0:ℚ) < 2 ^ (Int.log 2 q - 23) := by positivity
  unfold roundPos
  have h1 : (rne (q / 2 ^ (Int.log 2 q - 23)) : ℚ) ≤ (2:ℚ) ^ (24:ℤ) := by
    have ha := rne_le_add_half (q / 2 ^ (Int.log 2 q - 23))
    have hc : (2:ℚ) ^ (24:ℤ) = ((16777216:ℤ):ℚ) := by norm_num
    rw [hc]
    rw [hc] at hhi
    have hb : (rne (q / 2 ^ (Int.log 2 q - 23)) : ℚ) < ((16777216:ℤ):ℚ) + 1 := by
      linarith
    have hd : rne (q / 2 ^ (Int.log 2 q - 23)) < 16777216 + 1 := by exact_mod_cast hb
    exact_mod_cast (by omega : rne (q / 2 ^ (Int.log 2 q - 23)) ≤ 16777216)
  calc (rne (q / 2 ^ (Int.log 2 q - 23)) : ℚ) * 2 ^ (Int.log 2 q - 23)
      ≤ (2:ℚ) ^ (24:ℤ) * 2 ^ (Int.log 2 q - 23) :=
        mul_le_mul_of_nonneg_right h1 hp.le
    _ = 2 ^ (Int.log 2 q + 1) := by
        rw [← zpow_add₀ two_ne_zero]
        congr 1
        omega

theorem roundF32_zero : roundF32 0 = 0 := by
  unfold roundF32
  norm_num

theorem roundF32_pos (q : ℚ) (hq : 0 < q) : 0 < roundF32 q := by
  unfold roundF32
  rw [if_neg (by linarith), if_neg hq.ne']
  exact roundPos_pos q hq

theorem roundF32_nonneg (q : ℚ) (hq : 0 ≤ q) : 0 ≤ roundF32 q := by
  rcases eq_or_lt_of_le hq with h | h
  · rw [← h, roundF32_zero]
  · exact (roundF32_pos q h).le

theorem roundF32_natCast (n : ℕ) (hn : n < 2 ^ 24) : roundF32 (n : ℚ) = n := by
  rcases Nat.eq_zero_or_pos n with rfl | hpos
  · rw [Nat.cast_zero, roundF32_zero]
  · have hq : (0:ℚ) < (n:ℚ) := by exact_mod_cast hpos
    have h24 : (n:ℚ) < (2:ℚ) ^ (24:ℤ) := by
      have h : (2:ℚ) ^ (24:ℤ) = ((2 ^ 24 : ℕ) : ℚ) := by norm_num
      rw [h]
      exact_mod_cast hn
    have hL23 : Int.log 2 (n:ℚ) ≤ 23 := by
      have h := (Int.lt_zpow_iff_log_lt one_lt_two hq).mp
        (show (n:ℚ) < ((2:ℕ):ℚ) ^ (24:ℤ) by exact_mod_cast h24)
      omega
    have hs : (n:ℚ) / 2 ^ (Int.log 2 (n:ℚ) - 23)
        = ((n * 2 ^ (23 - Int.log 2 (n:ℚ)).toNat : ℕ) : ℚ) := by
      have he : Int.log 2 (n:ℚ) - 23
          = -(((23 - Int.log 2 (n:ℚ)).toNat : ℕ) : ℤ) := by
        omega
      rw [he, zpow_neg, zpow_natCast, div_eq_mul_inv, inv_inv]
      push_cast
      ring
    have hk : ((n * 2 ^ (23 - Int.log 2 (n:ℚ)).toNat : ℕ) : ℚ)
        * 2 ^ (Int.log 2 (n:ℚ) - 23) = (n:ℚ) := by
      rw [← hs]
      exact div_mul_cancel₀ _
        (by positivity : (0:ℚ) < 2 ^ (Int.log 2 (n:ℚ) - 23)).ne'
    unfold roundF32
    rw [if_neg (by linarith), if_neg hq.ne']
    unfold roundPos
    rw [hs, rne_natCast]
    push_cast
    push_cast at hk
    exact hk

theorem roundF32_le_one (q : ℚ) (h0 : 0 ≤ q) (h1 : q ≤ 1) : roundF32 q ≤ 1 := by
  rcases eq_or_lt_of_le h0 with h | h
  · rw [← h, roundF32_zero]
    norm_num
  · rcases eq_or_lt_of_le h1 with h' | h'
    · have hone : roundF32 ((1:ℕ):ℚ) = ((1:ℕ):ℚ) := roundF32_natCast 1 (by norm_num)
      rw [Nat.cast_one] at hone
      rw [h', hone]
    · have hL : Int.log 2 q < 0 := by
        have h2 : q < ((2:ℕ):ℚ) ^ (0:ℤ) := by
          rw [zpow_zero]
          exact_mod_cast h'
        exact (Int.lt_zpow_iff_log_lt one_lt_two h).mp h2
      unfold roundF32
      rw [if_neg (by linarith), if_neg h.ne']
      calc roundPos q ≤ (2:ℚ) ^ (Int.log 2 q + 1) := roundPos_le_zpow q
        _ ≤ 1 := zpow_le_one_of_nonpos₀ one_le_two (by omega)

/-! Concrete conversions at the boundary of exact f32 integers. -/

theorem natToF32_zero : natToF32 0 = 0 := by
  unfold natToF32
  rw [Nat.cast_zero, roundF32_zero]

theorem subF32_self (a : ℚ) : subF32 a a = 0 := by
  unfold subF32
  rw [sub_self, roundF32_zero]

theorem rne_big : rne (8388608:ℚ) = 8388608 := by
  have h := rne_intCast 8388608
  norm_num at h
  exact h

theorem natToF32_16777216 : natToF32 16777216 = 16777216 := by
  unfold natToF32
  rw [show ((16777216:ℕ):ℚ) = (16777216:ℚ) by norm_num]
  have hq : (0:ℚ) < 16777216 := by norm_num
  have hL : Int.log 2 (16777216:ℚ) = 24 :=
    log2_eq_of hq (by norm_num) (by norm_num)
  unfold roundF32
  rw [if_neg (by norm_num), if_neg (by norm_num)]
  unfold roundPos
  rw [hL, show (24:ℤ) - 23 = 1 by norm_num, zpow_one,
    show (16777216:ℚ)/2 = 8388608 by norm_num, rne_big]
  norm_num

theorem natToF32_16777217 : natToF32 16777217 = 16777216 := by
  unfold natToF32
  rw [show ((16777217:ℕ):ℚ) = (16777217:ℚ) by norm_num]
  have hq : (0:ℚ) < 16777217 := by norm_num
  have hL : Int.log 2 (16777217:ℚ) = 24 :=
    log2_eq_of hq (by norm_num) (by norm_num)
  unfold roundF32
  rw [if_neg (by norm_num), if_neg (by norm_num)]
  unfold roundPos
  rw [hL, show (24:ℤ) - 23 = 1 by norm_num, zpow_one]
  have hfl : ⌊(16777217:ℚ)/2⌋ = 8388608 := by
    rw [Int.floor_eq_iff]
    constructor <;> norm_num
  have hrne : rne ((16777217:ℚ)/2) = 8388608 := by
    unfold rne
    rw [hfl, show (16777217:ℚ)/2 - ((8388608:ℤ):ℚ) = 1/2 by norm_num]
    rw [if_neg (by norm_num), if_neg (by norm_num), if_pos (by decide)]
  rw [hrne]
  norm_num

/-- C8 (counterexample): the f32 arithmetic departs from the claimed
bounds at representable inputs.  A riding with two candidates holding
zero votes each computes 0.0/0.0, so its margin is NaN, not a value m
with 0 ≤ m ≤ 1; and a riding whose top two counts are 16777217 and
16777216 (just above 2^24, where conversion to f32 stops being exact)
computes margin 0.0 although the top two counts are not equal. -/
theorem victory_margin_float_cex :
    (2 ≤ ridingZero.candidates.length ∧
      victory_margin ridingZero = some F32.nan ∧
      ∀ m : ℚ, victory_margin ridingZero ≠ some (F32.finite m)) ∧
    (2 ≤ ridingBig.candidates.length ∧
      victory_margin ridingBig = some (F32.finite 0) ∧
      (16777217 : ℕ) ≠ 16777216) := by
  have hz : victory_margin ridingZero = some F32.nan := by
    have hsv : sortedVotes ridingZero = [0, 0] := by
      show List.mergeSort [0, 0] (fun a b => decide (b ≤ a)) = [0, 0]
      exact List.mergeSort_of_sorted (by decide)
    unfold victory_margin
    rw [hsv]
    show some (divF32 (subF32 (natToF32 0) (natToF32 0))
        (natToF32 ((0:ℕ) :: (0:ℕ) :: ([]:List ℕ)).sum)) = some F32.nan
    rw [show ((0:ℕ) :: (0:ℕ) :: ([]:List ℕ)).sum = 0 from rfl]
    rw [natToF32_zero, subF32_self]
    unfold divF32
    rw [if_pos rfl, if_pos rfl]
  have hb : victory_margin ridingBig = some (F32.finite 0) := by
    have hsv : sortedVotes ridingBig = [16777217, 16777216] := by
      show List.mergeSort [16777217, 16777216] (fun a b => decide (b ≤ a))
          = [16777217, 16777216]
      exact List.mergeSort_of_sorted (by decide)
    unfold victory_margin
    rw [hsv]
    show some (divF32 (subF32 (natToF32 16777217) (natToF32 16777216))
        (natToF32 ((16777217:ℕ) :: (16777216:ℕ) :: ([]:List ℕ)).sum))
      = some (F32.finite 0)
    rw [(by decide : ((16777217:ℕ) :: (16777216:ℕ) :: ([]:List ℕ)).sum = 33554433)]
    rw [natToF32_16777217, natToF32_16777216, subF32_self]
    have hpos : (0:ℚ) < natToF32 33554433 := by
      unfold natToF32
      apply roundF32_pos
      norm_num
    unfold divF32
    rw [if_neg hpos.ne', zero_div, roundF32_zero]
  refine ⟨⟨by decide, hz, ?_⟩, by decide, hb, by decide⟩
  intro m hm
  rw [hz] at hm
  exact F32.noConfusion (Option.some_inj.mp hm)

/-- C8 (amended): for every riding with at least two candidates whose
vote counts sum to a positive total below 2^24 — so that every count, the
top-two difference and the total convert to f32 exactly, as in any real
riding — victory_margin returns the finite, correctly rounded value of
(votes[0] - votes[1]) / total, which lies between 0 and 1 and is 0
exactly when the top two vote counts are equal.  Outside this range the
program can return NaN (an all-zero riding) or a zero margin without an
exact tie (counts above 2^24); see the counterexample. -/
theorem victory_margin_bounds (r : Riding) (h2 : 2 ≤ r.candidates.length)
    (hpos : 0 < (r.candidates.map fun pc => pc.2.votes).sum)
    (hlt : (r.candidates.map fun pc => pc.2.votes).sum < 2 ^ 24) :
    ∃ v0 v1 rest m,
      sortedVotes r = v0 :: v1 :: rest ∧
      victory_margin r = some (F32.finite m) ∧
      m = roundF32 (((v0 - v1 : ℕ) : ℚ) / (((v0 :: v1 :: rest).sum : ℕ) : ℚ)) ∧
      0 ≤ m ∧ m ≤ 1 ∧ (m = 0 ↔ v0 = v1) := by
  have hlen : (sortedVotes r).length = r.candidates.length := by
    unfold sortedVotes
    rw [List.length_mergeSort, List.length_map]
  have hsorted : List.Pairwise (fun a b => decide (b ≤ a) = true) (sortedVotes r) := by
    unfold sortedVotes
    exact List.sorted_mergeSort descNatB_trans descNatB_total
      (r.candidates.map fun pc => pc.2.votes)
  have hsum0 : (sortedVotes r).sum = (r.candidates.map fun pc => pc.2.votes).sum := by
    unfold sortedVotes
    exact (List.mergeSort_perm _ _).sum_eq
  rcases hsv : sortedVotes r with _ | ⟨v0, _ | ⟨v1, rest⟩⟩
  · rw [hsv] at hlen; simp at hlen; omega
  · rw [hsv] at hlen; simp at hlen; omega
  · rw [hsv] at hsorted hsum0
    have hv1 : v1 ≤ v0 := by
      have := (List.pairwise_cons.mp hsorted).1 v1 (List.mem_cons_self _ _)
      simpa using this
    have hS : (v0 :: v1 :: rest).sum = v0 + (v1 + rest.sum) := by
      simp [List.sum_cons]
    have hSpos : 0 < (v0 :: v1 :: rest).sum := by rw [hsum0]; exact hpos
    have hS24 : (v0 :: v1 :: rest).sum < 2 ^ 24 := by rw [hsum0]; exact hlt
    have hv0S : v0 ≤ (v0 :: v1 :: rest).sum := by rw [hS]; omega
    have hv024 : v0 < 2 ^ 24 := by omega
    have hv124 : v1 < 2 ^ 24 := by omega
    have hd24 : v0 - v1 < 2 ^ 24 := by omega
    have hA : natToF32 v0 = (v0 : ℚ) := roundF32_natCast v0 hv024
    have hB : natToF32 v1 = (v1 : ℚ) := roundF32_natCast v1 hv124
    have hT : natToF32 ((v0 :: v1 :: rest).sum)
        = (((v0 :: v1 :: rest).sum : ℕ) : ℚ) := roundF32_natCast _ hS24
    have hsub : subF32 (natToF32 v0) (natToF32 v1) = (((v0 - v1 : ℕ)) : ℚ) := by
      rw [hA, hB]
      unfold subF32
      rw [← Nat.cast_sub hv1]
      exact roundF32_natCast _ hd24
    have hTq0 : (0:ℚ) < (((v0 :: v1 :: rest).sum : ℕ) : ℚ) := by exact_mod_cast hSpos
    have hvm : victory_margin r = some (F32.finite
        (roundF32 ((((v0 - v1 : ℕ)) : ℚ) / (((v0 :: v1 :: rest).sum : ℕ) : ℚ)))) := by
      unfold victory_margin
      rw [hsv]
      show some (divF32 (subF32 (natToF32 v0) (natToF32 v1))
          (natToF32 (v0 :: v1 :: rest).sum)) = _
      rw [hsub, hT]
      unfold divF32
      rw [if_neg hTq0.ne']
    have hq0 : (0:ℚ) ≤ (((v0 - v1 : ℕ)) : ℚ) / (((v0 :: v1 :: rest).sum : ℕ) : ℚ) :=
      div_nonneg (by positivity) hTq0.le
    have hq1 : (((v0 - v1 : ℕ)) : ℚ) / (((v0 :: v1 :: rest).sum : ℕ) : ℚ) ≤ 1 := by
      rw [div_le_one hTq0]
      have hle : v0 - v1 ≤ (v0 :: v1 :: rest).sum := by rw [hS]; omega
      exact_mod_cast hle
    refine ⟨v0, v1, rest, _, rfl, hvm, rfl,
      roundF32_nonneg _ hq0, roundF32_le_one _ hq0 hq1, ?_, ?_⟩
    · intro hm0
      by_contra hne
      have hq : (0:ℚ) < (((v0 - v1 : ℕ)) : ℚ) / (((v0 :: v1 :: rest).sum : ℕ) : ℚ) := by
        apply div_pos _ hTq0
        have hdpos : 0 < v0 - v1 := by omega
        exact_mod_cast hdpos
      have hgt := roundF32_pos _ hq
      rw [hm0] at hgt
      exact lt_irrefl _ hgt
    · intro hv
      rw [(by omega : v0 - v1 = 0), Nat.cast_zero, zero_div, roundF32_zero]

/-- Witness for C8 (amended) at a riding with vote counts 25 and 20. -/
theorem victory_margin_bounds_witness :
    2 ≤ ridingClose.candidates.length ∧
    0 < (ridingClose.candidates.map fun pc => pc.2.votes).sum ∧
    (ridingClose.candidates.map fun pc => pc.2.votes).sum < 2 ^ 24 ∧
    ∃ v0 v1 rest m,
      sortedVotes ridingClose = v0 :: v1 :: rest ∧
      victory_margin ridingClose = some (F32.finite m) ∧
      m = roundF32 (((v0 - v1 : ℕ) : ℚ) / (((v0 :: v1 :: rest).sum : ℕ) : ℚ)) ∧
      0 ≤ m ∧ m ≤ 1 ∧ (m = 0 ↔ v0 = v1) :=
  ⟨by decide, by decide, by decide,
    victory_margin_bounds ridingClose (by decide) (by decide) (by decide)⟩

/-! The CON+PPC counterfactual report (C6, C10). -/

theorem comboOf_spec (r : Riding) (hne : r.candidates ≠ []) (v : ComboVictory) :
    comboOf r = some v ↔
      ∃ wp win con ppc,
        winner r.candidates = some wp ∧ wp ≠ Party.CON ∧
        r.candidates.lookup wp = some win ∧
        r.candidates.lookup Party.CON = some con ∧
        r.candidates.lookup Party.PPC = some ppc ∧
        con.votes + ppc.votes > win.votes ∧
        v = ⟨r.name, wp, win.votes, con.votes + ppc.votes,
          con.votes + ppc.votes - win.votes⟩ := by
  have hsome : ∃ wp, winner r.candidates = some wp := by
    rcases hcs : r.candidates with _ | ⟨x, xs⟩
    · exact absurd hcs hne
    · exact ⟨(xs.foldl maxStep x).1, rfl⟩
  rcases hsome with ⟨wp0, hOw⟩
  unfold comboOf
  by_cases hw : was_winner Party.CON r
  · rw [if_pos hw]
    unfold was_winner at hw
    rw [hOw] at hw
    obtain rfl : wp0 = Party.CON := Option.some_inj.mp hw
    constructor
    · intro h; exact Option.noConfusion h
    · rintro ⟨wp, win, con, ppc, hwp, hnc, -, -, -, -, -⟩
      rw [hOw] at hwp
      exact absurd (Option.some_inj.mp hwp).symm hnc
  · rw [if_neg hw, hOw, Option.some_bind]
    have hwp0 : wp0 ≠ Party.CON := by
      intro hcon
      apply hw
      unfold was_winner
      rw [hOw, hcon]
    rcases hlw : r.candidates.lookup wp0 with _ | win0
    · rw [Option.none_bind]
      constructor
      · intro h; exact Option.noConfusion h
      · rintro ⟨wp, win, con, ppc, hwp, -, hl1, -, -, -, -⟩
        obtain rfl : wp0 = wp := Option.some_inj.mp hwp
        rw [hlw] at hl1
        exact Option.noConfusion hl1
    · rw [Option.some_bind]
      rcases hlc : r.candidates.lookup Party.CON with _ | con0
      · rw [Option.none_bind]
        constructor
        · intro h; exact Option.noConfusion h
        · rintro ⟨wp, win, con, ppc, -, -, -, hl2, -, -, -⟩
          exact Option.noConfusion hl2
      · rw [Option.some_bind]
        rcases hlp : r.candidates.lookup Party.PPC with _ | ppc0
        · rw [Option.none_bind]
          constructor
          · intro h; exact Option.noConfusion h
          · rintro ⟨wp, win, con, ppc, -, -, -, -, hl3, -, -⟩
            exact Option.noConfusion hl3
        · rw [Option.some_bind]
          by_cases hgt : con0.votes + ppc0.votes > win0.votes
          · rw [if_pos hgt]
            constructor
            · intro h
              exact ⟨wp0, win0, con0, ppc0, rfl, hwp0, hlw, rfl, rfl, hgt,
                (Option.some_inj.mp h).symm⟩
            · rintro ⟨wp, win, con, ppc, hwp, -, hl1, hl2, hl3, -, hv⟩
              obtain rfl : wp0 = wp := Option.some_inj.mp hwp
              rw [hlw] at hl1
              obtain rfl : win0 = win := Option.some_inj.mp hl1
              obtain rfl : con0 = con := Option.some_inj.mp hl2
              obtain rfl : ppc0 = ppc := Option.some_inj.mp hl3
              rw [hv]
          · rw [if_neg hgt]
            constructor
            · intro h; exact Option.noConfusion h
            · rintro ⟨wp, win, con, ppc, hwp, -, hl1, hl2, hl3, hgt2, -⟩
              obtain rfl : wp0 = wp := Option.some_inj.mp hwp
              rw [hlw] at hl1
              obtain rfl : win0 = win := Option.some_inj.mp hl1
              obtain rfl : con0 = con := Option.some_inj.mp hl2
              obtain rfl : ppc0 = ppc := Option.some_inj.mp hl3
              exact absurd hgt2 hgt

/-- C6: the counterfactual report emits (for riding sets whose ridings all
carry at least one candidate, as those built by the ridings function do) a
record exactly for the ridings where CON did not win, a CON and a PPC
candidate are present, and CON plus PPC votes strictly exceed the winner
votes; the record carries the riding name, the winner, the winner votes,
the combined votes and their difference, and ridings missing a required
candidate are skipped. -/
theorem ppc_con_spec (rs : List Riding) (hne : ∀ r ∈ rs, r.candidates ≠ [])
    (v : ComboVictory) :
    v ∈ ppc_con rs ↔
      ∃ r ∈ rs, ∃ wp win con ppc,
        winner r.candidates = some wp ∧ wp ≠ Party.CON ∧
        r.candidates.lookup wp = some win ∧
        r.candidates.lookup Party.CON = some con ∧
        r.candidates.lookup Party.PPC = some ppc ∧
        con.votes + ppc.votes > win.votes ∧
        v = ⟨r.name, wp, win.votes, con.votes + ppc.votes,
          con.votes + ppc.votes - win.votes⟩ := by
  unfold ppc_con
  rw [List.mem_filterMap]
  constructor
  · rintro ⟨r, hr, hcomb⟩
    exact ⟨r, hr, (comboOf_spec r (hne r hr) v).mp hcomb⟩
  · rintro ⟨r, hr, hbody⟩
    exact ⟨r, hr, (comboOf_spec r (hne r hr) v).mpr hbody⟩

/-- Witness for C6 at the scenario ridings R2 (no record) and R3
(record emitted). -/
theorem ppc_con_spec_witness :
    (∀ r ∈ [ridingR2, ridingR3], r.candidates ≠ []) ∧
    comboR3 ∈ ppc_con [ridingR2, ridingR3] :=
  ⟨by decide,
    (ppc_con_spec [ridingR2, ridingR3] (by decide) comboR3).mpr
      ⟨ridingR3, by decide, Party.LIB, ⟨"Lou", "L", 20⟩, ⟨"Cam", "C", 12⟩,
        ⟨"Pia", "P", 10⟩, by decide, by decide, by decide, by decide,
        by decide, by decide, by decide⟩⟩

/-- C10: every record emitted by the counterfactual report has combined
CON+PPC votes strictly above the winner votes (enforced by the preceding
filter), so the unsigned subtraction producing difference cannot
underflow and every emitted difference is at least 1. -/
theorem ppc_con_difference_pos (rs : List Riding) (v : ComboVictory)
    (hv : v ∈ ppc_con rs) :
    v.winner_votes < v.con_ppc_votes ∧
    v.difference = v.con_ppc_votes - v.winner_votes ∧
    1 ≤ v.difference := by
  unfold ppc_con at hv
  rw [List.mem_filterMap] at hv
  rcases hv with ⟨r, -, hcomb⟩
  unfold comboOf at hcomb
  by_cases hw : was_winner Party.CON r
  · rw [if_pos hw] at hcomb
    exact Option.noConfusion hcomb
  · rw [if_neg hw] at hcomb
    rcases hOw : winner r.candidates with _ | wp0 <;> rw [hOw] at hcomb
    · exact Option.noConfusion hcomb
    · rw [Option.some_bind] at hcomb
      rcases hlw : r.candidates.lookup wp0 with _ | win0 <;> rw [hlw] at hcomb
      · exact Option.noConfusion hcomb
      · rw [Option.some_bind] at hcomb
        rcases hlc : r.candidates.lookup Party.CON with _ | con0 <;>
          rw [hlc] at hcomb
        · exact Option.noConfusion hcomb
        · rw [Option.some_bind] at hcomb
          rcases hlp : r.candidates.lookup Party.PPC with _ | ppc0 <;>
            rw [hlp] at hcomb
          · exact Option.noConfusion hcomb
          · rw [Option.some_bind] at hcomb
            by_cases hgt : con0.votes + ppc0.votes > win0.votes
            · rw [if_pos hgt] at hcomb
              obtain rfl : (⟨r.name, wp0, win0.votes, con0.votes + ppc0.votes,
                  con0.votes + ppc0.votes - win0.votes⟩ : ComboVictory) = v :=
                Option.some_inj.mp hcomb
              refine ⟨hgt, rfl, ?_⟩
              show 1 ≤ con0.votes + ppc0.votes - win0.votes
              omega
            · rw [if_neg hgt] at hcomb
              exact Option.noConfusion hcomb

/-- Witness for C10 at a riding where NDP wins 18 against CON 10 + PPC 9. -/
theorem ppc_con_difference_pos_witness :
    comboR4 ∈ ppc_con [ridingR4] ∧
    (comboR4.winner_votes < comboR4.con_ppc_votes ∧
     comboR4.difference = comboR4.con_ppc_votes - comboR4.winner_votes ∧
     1 ≤ comboR4.difference) :=
  ⟨by decide, ppc_con_difference_pos [ridingR4] comboR4 (by decide)⟩

/-! Unrecognized party labels (C7) and the totals report (C4). -/

/-- C7 (counterexample): a row whose party label matches no known name or
alias fails to deserialize — the Party enum has no catch-all variant — and
the collect of results aborts the whole ingestion with that error, so the
row neither maps to a fallback party nor is merely dropped. -/
theorem unknown_label_fails_cex :
    partyFromLabel "Zebra Party" = none ∧
    ingest [rowUnknown] = Except.error "unknown variant Zebra Party" :=
  ⟨rfl, rfl⟩

/-- C7 (amended): an input row whose party label is not a recognized name
or alias of any known party makes its deserialization fail, and the first
such failure aborts ingestion of the whole row set with an error: no Poll
list is produced at all. -/
theorem ingest_error_of_unknown_label (rows : List RawRow) (row : RawRow)
    (hmem : row ∈ rows) (hlabel : partyFromLabel row.party_label = none) :
    ∃ e, ingest rows = Except.error e := by
  induction rows with
  | nil => simp at hmem
  | cons r rs ih =>
    rcases List.mem_cons.mp hmem with h | h
    · subst h
      have hp : parseRow row = Except.error ("unknown variant " ++ row.party_label) := by
        unfold parseRow
        rw [hlabel]
      refine ⟨"unknown variant " ++ row.party_label, ?_⟩
      unfold ingest
      rw [hp]
    · cases hp : parseRow r with
      | error e =>
        refine ⟨e, ?_⟩
        unfold ingest
        rw [hp]
      | ok p =>
        rcases ih h with ⟨e, he⟩
        refine ⟨e, ?_⟩
        unfold ingest
        rw [hp, he]

/-- Witness for C7 (amended) at the unknown-label row. -/
theorem ingest_error_of_unknown_label_witness :
    rowUnknown ∈ [rowUnknown] ∧
    partyFromLabel rowUnknown.party_label = none ∧
    ∃ e, ingest [rowUnknown] = Except.error e :=
  ⟨by decide, rfl,
    ingest_error_of_unknown_label [rowUnknown] rowUnknown (by decide) rfl⟩

/-- C4 (counterexample): the totals report serializes the votes hash map
in its iteration order; two valid iteration orders of the same key set
(votesKeys evaluates to the LIB-CON pair, and the swapped pair is a
permutation of it) give different outputs on the same input polls, so
byte-identical output across runs is not guaranteed. -/
theorem totals_depends_on_iteration_order_cex :
    votesKeys (ridings pollsOneRiding) = [Party.LIB, Party.CON] ∧
    ([Party.CON, Party.LIB] : List Party).Perm [Party.LIB, Party.CON] ∧
    totals pollsOneRiding [Party.LIB, Party.CON]
      ≠ totals pollsOneRiding [Party.CON, Party.LIB] := by
  refine ⟨by decide, List.Perm.swap _ _ _, by decide⟩
